import Mathlib

/-!
Verification of the ETL pipeline of this repository (src/src/etl.rs) against
its specification, as a shallow embedding in Lean 4.

The embedding covers:
* the JSON value tree (mode of serde_json::Value, with numbers abstracted to
  Int, which no claim depends on);
* the spec-described flatten operation (the repository ships no flatten
  implementation, so it is modelled from the spec, section 4.1);
* ETLPipeline::process_file and ETLPipeline::process_directory, with the
  filesystem, the JSON parser and the database modelled as an explicit
  environment of external collaborators (spec section 6), and the side
  effects (executed statements and inserted rows) made explicit in the result.
-/

/-! ## JSON values (serde_json::Value) -/

/-- JSON tree, mirroring serde_json::Value. Numbers are abstracted to Int:
no property below inspects numeric contents. -/
inductive Json where
  | null : Json
  | bool (b : Bool) : Json
  | num (n : Int) : Json
  | str (s : String) : Json
  | arr (xs : List Json) : Json
  | obj (fields : List (String × Json)) : Json
deriving Repr

/-- Whether a JSON value is an object. -/
def Json.isObj : Json → Bool
  | .obj _ => true
  | _ => false

/-! ## The flatten operation, modelled from the spec -/

/-- Modelled from the spec: compound key construction of section 3 — for a
child key k under accumulated key p, the new key is p followed by an
underscore and k when p is non-empty, and k alone otherwise. -/
def combineKey (p k : String) : String :=
  if p.isEmpty then k else p ++ "_" ++ k

/-- Modelled from the spec: the recursion of flatten over an object's field
list (section 4.1); the repository contains no flatten implementation. An
object child is flattened recursively under the combined key; an array or
scalar child yields one entry holding the child verbatim. The result is
the traversal's entry STREAM, in insert order: the unique-key FlatRecord
arises by merging this stream with the later entry for a compound key
silently overwriting the earlier (mergeEntries and flatRecord below); the
two coincide whenever no two leaves collide on one compound key. -/
def flattenFields (pre : String) : List (String × Json) → List (String × Json)
  | [] => []
  | (k, child) :: rest =>
    (match child with
     | .obj f => flattenFields (combineKey pre k) f
     | c => [(combineKey pre k, c)]) ++ flattenFields pre rest

/-- Modelled from the spec: flatten of section 4.1, as the traversal's
entry stream (see flattenFields). A non-object top value yields the single
entry keyed by the current prefix string. -/
def flatten (v : Json) (pre : String) : List (String × Json) :=
  match v with
  | .obj fields => flattenFields pre fields
  | v => [(pre, v)]

/-- The leaves of a JSON tree: each non-object value together with the list
of object keys on the path to it. Arrays count as leaves (the spec stores
them opaquely). -/
def leavesFields : List (String × Json) → List (List String × Json)
  | [] => []
  | (k, child) :: rest =>
    (match child with
     | .obj f => (leavesFields f).map (fun e => (k :: e.1, e.2))
     | c => [([k], c)]) ++ leavesFields rest

/-- Leaves of a JSON value (see leavesFields). -/
def leaves (v : Json) : List (List String × Json) :=
  match v with
  | .obj fields => leavesFields fields
  | v => [([], v)]

/-- Left fold of combineKey over a key path: the compound key flatten
actually assigns to a leaf reached through that path. -/
def joinKey (p : String) : List String → String
  | [] => p
  | k :: ks => joinKey (combineKey p k) ks

/-- Plain underscore join of a key path, as the specification words
"joined with underscores" read: the keys separated by single underscores. -/
def underscoreJoin : List String → String
  | [] => ""
  | [k] => k
  | k :: ks => k ++ "_" ++ underscoreJoin ks

/-- Modelled from the spec: inserting one entry into the FlatRecord under
construction (section 4.1). A new compound key is appended; an entry whose
compound key is already present silently overwrites the earlier value at
that key, keeping keys unique. -/
def insertEntry (r : List (String × Json)) (k : String) (v : Json) : List (String × Json) :=
  if r.any (fun e => e.1 = k) then
    r.map (fun e => if e.1 = k then (k, v) else e)
  else r ++ [(k, v)]

/-- Modelled from the spec: merging a stream of entries into a FlatRecord,
one insertEntry at a time in stream order, so that for each compound key
the later-processed entry silently overwrites the earlier (section 4.1). -/
def mergeEntries (r : List (String × Json)) : List (String × Json) → List (String × Json)
  | [] => r
  | (k, v) :: rest => mergeEntries (insertEntry r k v) rest

/-- Modelled from the spec: the FlatRecord of one document (sections 3 and
4.1) — the flatten traversal's entry stream merged into a unique-key
mapping, later entries overwriting earlier ones on compound-key
collisions. -/
def flatRecord (v : Json) : List (String × Json) :=
  mergeEntries [] (flatten v "")

/-! ## Rust path semantics needed by the pipeline -/

/-- Characters after the last dot of a character list, none when no dot
occurs: the core of Rust's Path::extension on a file name. -/
def extAux : List Char → Option (List Char)
  | [] => none
  | c :: rest =>
    match extAux rest with
    | some e => some e
    | none => if c = '.' then some rest else none

/-- Rust Path::extension on a file name (std::path): the portion after the
last dot, except that a name whose only dot is a leading dot (a hidden file
such as ".json") has no extension. -/
def rustExtension (name : String) : Option String :=
  (match name.data with
   | [] => none
   | c :: rest => if c = '.' then extAux rest else extAux (c :: rest)).map
    fun cs => ⟨cs⟩

/-- A filesystem path, abstracted to exactly what the pipeline reads off it:
the result of Path::file_name composed with OsStr::to_str. It is none for a
path with no final component (such as a path ending in "..") or a non-UTF-8
final component; directory entry paths always carry the entry's name. -/
structure FsPath where
  fileName? : Option String

/-- Rust Path::extension composed with to_str on an abstracted path: the
extension of the file name when there is one. -/
def FsPath.extension (p : FsPath) : Option String :=
  p.fileName?.bind rustExtension

/-! ## The ETL pipeline (src/src/etl.rs) -/

/-- ETLPipelineError of src/src/etl.rs. Each variant carries the formatted
message string of the Rust enum; the claims only distinguish variants, so
the model fills the message from the path name. -/
inductive ETLPipelineError where
  | fileReadError (msg : String)
  | jsonParseError (msg : String)
  | databaseError (msg : String)
  | directoryError (msg : String)

/-- Whether a pipeline error is the DirectoryError variant. -/
def ETLPipelineError.isDirectoryError : ETLPipelineError → Bool
  | .directoryError _ => true
  | _ => false

/-- Whether a pipeline result is an error of the DirectoryError variant. -/
def resultIsDirectoryError : Except ETLPipelineError Unit → Bool
  | .error e => e.isDirectoryError
  | .ok _ => false

/-- A value bound to a placeholder of an executed statement: sqlx bind of a
String or of a serde_json::Value. -/
inductive SqlValue where
  | str (s : String)
  | json (v : Json)

/-- One executed parameterized statement: its SQL text and its bound values
in placeholder order. -/
structure SqlExec where
  text : String
  binds : List SqlValue

/-- The external collaborators process_file consults, as the spec's
section 6 lists them: the filesystem (fs::read_to_string, none meaning an
io error), the JSON parser (serde_json::from_str, none meaning a syntax
error) and the database (whether executing a statement succeeds). -/
structure Env where
  readFile : FsPath → Option String
  parseJson : String → Option Json
  dbOk : SqlExec → Bool

/-- The SQL text of the one query process_file executes (src/src/etl.rs
lines 88-93), the raw string literal verbatim: a fixed statement inserting
into json_data (file_name, data) with two positional placeholders. -/
def insertSqlText : String :=
  "\n            INSERT INTO json_data (file_name, data)\n            VALUES ($1, $2)\n            "

/-- The name bound as file_name: file_name().and_then(to_str) with
"unknown" substituted when that is none (src/src/etl.rs lines 80-84). -/
def fileNameOf (p : FsPath) : String :=
  p.fileName?.getD "unknown"

/-- The observable outcome of one process_file call: its returned result,
the statements it executed (attempted) in order, and the rows actually
inserted into json_data. -/
structure FileOutcome where
  result : Except ETLPipelineError Unit
  stmts : List SqlExec
  rows : List (String × Json)

/-- ETLPipeline::process_file (src/src/etl.rs lines 67-109): read the file,
parse it as JSON, then execute the fixed insert statement binding the file
name and the parsed value; each failure maps to its error variant and stops
the call. -/
def processFile (env : Env) (p : FsPath) : FileOutcome :=
  match env.readFile p with
  | none => ⟨.error (.fileReadError (fileNameOf p)), [], []⟩
  | some content =>
    match env.parseJson content with
    | none => ⟨.error (.jsonParseError (fileNameOf p)), [], []⟩
    | some v =>
      let stmt : SqlExec := ⟨insertSqlText, [.str (fileNameOf p), .json v]⟩
      if env.dbOk stmt then ⟨.ok (), [stmt], [(fileNameOf p, v)]⟩
      else ⟨.error (.databaseError (fileNameOf p)), [stmt], []⟩

/-- Whether process_file returns Ok in the given environment. -/
def fileOk (env : Env) (p : FsPath) : Bool :=
  match (processFile env p).result with
  | .ok _ => true
  | .error _ => false

/-- The observable outcome of one process_directory call: its returned
result, the entries process_file was invoked on in order, the statements
executed, the rows inserted, and the two counters of the source. -/
structure DirOutcome where
  result : Except ETLPipelineError Unit
  processedOn : List FsPath
  stmts : List SqlExec
  rows : List (String × Json)
  processedFiles : Nat
  failedFiles : Nat

/-- The entry loop of ETLPipeline::process_directory (src/src/etl.rs lines
135-151) over the listed entries: an entry that cannot be read (modelled as
none) returns DirectoryError at once; an entry whose path has extension
"json" goes through process_file, a success incrementing processed_files
and a failure incrementing failed_files, the loop continuing either way;
every other entry is skipped. After the loop the source returns Ok. -/
def processEntries (env : Env) : List (Option FsPath) → DirOutcome
  | [] => ⟨.ok (), [], [], [], 0, 0⟩
  | none :: _ => ⟨.error (.directoryError "Failed to read entry"), [], [], [], 0, 0⟩
  | some p :: rest =>
    if p.extension = some "json" then
      let fo := processFile env p
      let d := processEntries env rest
      match fo.result with
      | .ok _ =>
        ⟨d.result, p :: d.processedOn, fo.stmts ++ d.stmts, fo.rows ++ d.rows,
          d.processedFiles + 1, d.failedFiles⟩
      | .error _ =>
        ⟨d.result, p :: d.processedOn, fo.stmts ++ d.stmts, fo.rows ++ d.rows,
          d.processedFiles, d.failedFiles + 1⟩
    else processEntries env rest

/-- ETLPipeline::process_directory (src/src/etl.rs lines 124-163): a
directory whose listing fails (modelled as none) returns DirectoryError;
otherwise the entry loop runs over the listed entries. -/
def processDirectory (env : Env) (listing : Option (List (Option FsPath))) : DirOutcome :=
  match listing with
  | none => ⟨.error (.directoryError "read_dir"), [], [], [], 0, 0⟩
  | some es => processEntries env es

/-! ## Claim-side definitions and concrete test fixtures -/

/-- The column list claim C2 derives: the flattened mapping's keys. -/
def claimedColumns (v : Json) : List String :=
  (flatten v "").map Prod.fst

/-- The bound-value list claim C2 expects: the flattened values, in the
order of their keys. -/
def claimedBindValues (v : Json) : List SqlValue :=
  (flatten v "").map (fun e => .json e.2)

/-- A parsed document with the single scalar field a: the value the fixture
parser below returns. -/
def jA : Json := .obj [("a", .num 1)]

/-- A second parsed document, a bare string, for comparing two runs. -/
def jB : Json := .str "hello"

/-- A flat object whose leaf at key a is an array: arrays stay opaque. -/
def jArr : Json := .obj [("a", .arr [.num 1, .num 2, .num 3])]

/-- An object whose top key is the empty string over a nested object:
the input exercising compound keys built through an empty prefix. -/
def jEmptyKey : Json := .obj [("", .obj [("b", .num 1)])]

/-- The spec's own collision example, section 4.1: a literal key a_b next
to a nested path a then b, both of which collapse to the compound key a_b. -/
def jCollide : Json := .obj [("a_b", .num 1), ("a", .obj [("b", .num 2)])]

/-- A path named f.json. -/
def pF : FsPath := ⟨some "f.json"⟩

/-- A path named g.json. -/
def pG : FsPath := ⟨some "g.json"⟩

/-- A path named a.json. -/
def pA : FsPath := ⟨some "a.json"⟩

/-- A path named b.json. -/
def pB : FsPath := ⟨some "b.json"⟩

/-- A path named b.txt. -/
def pT : FsPath := ⟨some "b.txt"⟩

/-- A path named c.JSON (upper case). -/
def pJ : FsPath := ⟨some "c.JSON"⟩

/-- A hidden-file path named exactly ".json". -/
def pHidden : FsPath := ⟨some ".json"⟩

/-- A path with no extractable final component, as a path ending in ".."
has none. -/
def pNoName : FsPath := ⟨none⟩

/-- Fixture: every file read fails with an io error. -/
def envReadFail : Env := ⟨fun _ => none, fun _ => none, fun _ => true⟩

/-- Fixture: every file reads fine but its content fails to parse, as a
file containing malformed JSON does. -/
def envParseFail : Env := ⟨fun _ => some "not-json", fun _ => none, fun _ => true⟩

/-- Fixture: every file reads as one fixed content that parses to jA, and
the database accepts every statement. -/
def envA : Env :=
  ⟨fun _ => some "file-content-a",
   fun c => if c = "file-content-a" then some jA else none,
   fun _ => true⟩

/-- Fixture: every file reads as another content that parses to jB, and
the database accepts every statement. -/
def envB : Env :=
  ⟨fun _ => some "file-content-b",
   fun c => if c = "file-content-b" then some jB else none,
   fun _ => true⟩

/-! ## Helper lemmas: flatten -/

/-- Combining an empty prefix with a key yields the key alone. -/
theorem combineKey_empty (k : String) : combineKey "" k = k := rfl

/-- The entries flattenFields produces are exactly the leaves of the field
list, one entry per leaf and in traversal order, each keyed by the fold of
combineKey over its ancestor key path starting from the current prefix. -/
theorem flattenFields_eq_leaves (pre : String) (fs : List (String × Json)) :
    flattenFields pre fs = (leavesFields fs).map (fun e => (joinKey pre e.1, e.2)) := by
  induction pre, fs using flattenFields.induct with
  | case1 pre => simp [flattenFields, leavesFields]
  | case2 pre k child rest ih1 ih2 =>
    cases child with
    | obj f =>
      simp only [flattenFields, leavesFields] at *
      rw [ih1, ih2, List.map_append, List.map_map]
      rfl
    | null =>
      simp only [flattenFields, leavesFields] at *
      rw [ih2]
      rfl
    | bool b =>
      simp only [flattenFields, leavesFields] at *
      rw [ih2]; rfl
    | num n =>
      simp only [flattenFields, leavesFields] at *
      rw [ih2]; rfl
    | str s =>
      simp only [flattenFields, leavesFields] at *
      rw [ih2]; rfl
    | arr xs =>
      simp only [flattenFields, leavesFields] at *
      rw [ih2]; rfl

/-- Top-level form of flattenFields_eq_leaves for a whole document. -/
theorem flatten_eq_leaves (v : Json) :
    flatten v "" = (leaves v).map (fun e => (joinKey "" e.1, e.2)) := by
  cases v <;> simp [flatten, leaves, flattenFields_eq_leaves, joinKey]

/-- A string holding an underscore between two parts is not empty. -/
theorem string_append_ne_empty (p k : String) : p ++ "_" ++ k ≠ "" := by
  intro h
  have : (p ++ "_" ++ k).length = 0 := by rw [h]; rfl
  simp [String.length_append] at this
  exact absurd this.1.2 (by decide)

/-- Combining with a non-empty key never yields the empty string. -/
theorem combineKey_ne_empty (p k : String) (hk : k ≠ "") : combineKey p k ≠ "" := by
  unfold combineKey
  by_cases hp : p.isEmpty <;> simp [hp]
  · exact hk
  · exact string_append_ne_empty p k

/-- On a non-empty starting prefix and non-empty keys, the combineKey fold
is the plain underscore join of prefix and keys. -/
theorem joinKey_nonempty_underscore (p : String) (hp : p ≠ "") (ks : List String)
    (hks : ∀ k ∈ ks, k ≠ "") : joinKey p ks = underscoreJoin (p :: ks) := by
  induction ks generalizing p with
  | nil => simp [joinKey, underscoreJoin]
  | cons k ks ih =>
    have hk : k ≠ "" := hks k (List.mem_cons_self _ _)
    have hpe : p.isEmpty = false := by
      cases hpp : p.isEmpty
      · rfl
      · exact absurd ((String.isEmpty_iff p).mp hpp) hp
    have hck : combineKey p k = p ++ "_" ++ k := by simp [combineKey, hpe]
    calc joinKey p (k :: ks) = joinKey (combineKey p k) ks := rfl
      _ = underscoreJoin (combineKey p k :: ks) := by
          refine ih (combineKey p k) ?_ (fun x hx => hks x (List.mem_cons_of_mem _ hx))
          exact combineKey_ne_empty p k hk
      _ = underscoreJoin (p :: k :: ks) := by
          rw [hck]
          cases ks with
          | nil => simp [underscoreJoin, String.append_assoc]
          | cons a l => simp [underscoreJoin, String.append_assoc]

/-- On an empty starting prefix, when no key of the path is empty, the
combineKey fold agrees with the plain underscore join of the path. -/
theorem joinKey_empty_underscore (ks : List String) (hks : ∀ k ∈ ks, k ≠ "") :
    joinKey "" ks = underscoreJoin ks := by
  cases ks with
  | nil => rfl
  | cons k l =>
    have hk : k ≠ "" := hks k (List.mem_cons_self _ _)
    calc joinKey "" (k :: l) = joinKey k l := by rw [joinKey, combineKey_empty]
      _ = underscoreJoin (k :: l) :=
          joinKey_nonempty_underscore k hk l (fun x hx => hks x (List.mem_cons_of_mem _ hx))

/-- insertEntry preserves key uniqueness: overwriting keeps the key list
unchanged, and a new key is appended only when absent. -/
theorem insertEntry_keys_nodup (r : List (String × Json)) (k : String) (v : Json)
    (h : (r.map Prod.fst).Nodup) : ((insertEntry r k v).map Prod.fst).Nodup := by
  unfold insertEntry
  by_cases hk : r.any (fun e => e.1 = k)
  · rw [if_pos hk]
    have heq : (r.map (fun e => if e.1 = k then (k, v) else e)).map Prod.fst
        = r.map Prod.fst := by
      rw [List.map_map]
      apply List.map_congr_left
      intro e he
      by_cases h1 : e.1 = k <;> simp [h1]
    rw [heq]
    exact h
  · rw [if_neg hk]
    have hkn : k ∉ r.map Prod.fst := by
      intro hmem
      apply hk
      rw [List.any_eq_true]
      obtain ⟨e, he, hke⟩ := List.mem_map.mp hmem
      exact ⟨e, he, by simp [hke]⟩
    rw [List.map_append]
    simp only [List.map_cons, List.map_nil]
    rw [List.nodup_append]
    refine ⟨h, List.nodup_singleton k, ?_⟩
    intro a ha hb
    simp at hb
    rw [hb] at ha
    exact hkn ha

/-- Merging any entry stream into a unique-key record keeps its keys
unique. -/
theorem mergeEntries_keys_nodup (l : List (String × Json)) (r : List (String × Json))
    (h : (r.map Prod.fst).Nodup) : ((mergeEntries r l).map Prod.fst).Nodup := by
  induction l generalizing r with
  | nil => simpa [mergeEntries] using h
  | cons e rest ih =>
    obtain ⟨k, v⟩ := e
    exact ih _ (insertEntry_keys_nodup r k v h)

/-- When the combined keys are collision-free, merging never overwrites:
the record is exactly the accumulated list followed by the stream. -/
theorem mergeEntries_nodup_append (l r : List (String × Json))
    (h : ((r ++ l).map Prod.fst).Nodup) : mergeEntries r l = r ++ l := by
  induction l generalizing r with
  | nil => simp [mergeEntries]
  | cons e rest ih =>
    obtain ⟨k, v⟩ := e
    have hkn : k ∉ r.map Prod.fst := by
      rw [List.map_append, List.nodup_append] at h
      intro hmem
      exact h.2.2 hmem (by simp)
    have hk : ¬ r.any (fun e => e.1 = k) = true := by
      rw [List.any_eq_true]
      rintro ⟨e, he, hke⟩
      simp at hke
      exact hkn (List.mem_map.mpr ⟨e, he, hke⟩)
    have hins : insertEntry r k v = r ++ [(k, v)] := by
      unfold insertEntry
      rw [if_neg hk]
    rw [mergeEntries, hins, ih]
    · simp
    · simpa [List.append_assoc] using h

/-! ## Helper lemmas: Rust extension semantics -/

/-- extAux finds no extension exactly on dot-free names. -/
theorem extAux_eq_none_iff (cs : List Char) : extAux cs = none ↔ '.' ∉ cs := by
  induction cs with
  | nil => simp [extAux]
  | cons c rest ih =>
    simp only [extAux]
    cases h : extAux rest with
    | some e => simp_all
    | none =>
      by_cases hc : c = '.'
      · simp_all
      · simp_all
        exact fun hh => hc hh.symm

/-- extAux yields a dot-free e exactly when the name ends in a dot followed
by e. -/
theorem extAux_eq_some_iff (e : List Char) (he : '.' ∉ e) (cs : List Char) :
    extAux cs = some e ↔ ('.' :: e) <:+ cs := by
  induction cs with
  | nil => simp [extAux]
  | cons c rest ih =>
    simp only [extAux]
    rw [List.suffix_cons_iff]
    cases h : extAux rest with
    | some e' =>
      rw [h] at ih
      constructor
      · intro hs
        right
        exact ih.mp hs
      · rintro (hs | hs)
        · exfalso
          have hr : rest = e := (List.cons.injEq _ _ _ _ ▸ hs).2.symm
          have : extAux rest = none := (extAux_eq_none_iff rest).mpr (hr ▸ he)
          simp [this] at h
        · exact ih.mpr hs
    | none =>
      have hrest : '.' ∉ rest := (extAux_eq_none_iff rest).mp h
      by_cases hc : c = '.'
      · subst hc
        simp only [if_pos rfl]
        constructor
        · intro hs
          left
          have : rest = e := by simpa using hs
          rw [this]
        · rintro (hs | hs)
          · have : e = rest := (List.cons.injEq _ _ _ _ ▸ hs).2
            rw [this]
            simp
          · exact absurd (hs.subset (List.mem_cons_self _ _)) hrest
      · simp only [if_neg hc]
        constructor
        · intro hs; cases hs
        · rintro (hs | hs)
          · exact absurd ((List.cons.injEq _ _ _ _ ▸ hs).1.symm) hc
          · exact absurd (hs.subset (List.mem_cons_self _ _)) hrest

/-- Rust's extension is "json" exactly when the name ends in ".json" by a
case-sensitive suffix match AND the name is not the hidden file ".json"
itself (whose only dot is its leading dot). -/
theorem rustExtension_json_iff (name : String) :
    rustExtension name = some "json" ↔
      (".json".data <:+ name.data ∧ name ≠ ".json") := by
  have hj : ('.' : Char) ∉ "json".data := by decide
  have hdj : (".json".data : List Char) = '.' :: "json".data := rfl
  unfold rustExtension
  cases hn : name.data with
  | nil =>
    simp only [Option.map_eq_some']
    constructor
    · rintro ⟨cs, hcs, _⟩; cases hcs
    · rintro ⟨hs, _⟩
      rw [List.suffix_nil] at hs
      cases hs
  | cons c rest =>
    have hname : name ≠ ".json" ↔ (c :: rest : List Char) ≠ ".json".data := by
      rw [Ne, String.ext_iff, hn]
    dsimp only
    constructor
    · intro hmap
      obtain ⟨cs, hcs, hjson⟩ := Option.map_eq_some'.mp hmap
      have hcsd : cs = "json".data := by
        have := String.ext_iff.mp hjson
        simpa using this
      subst hcsd
      by_cases hc : c = '.'
      · subst hc
        rw [if_pos rfl] at hcs
        have hsuf : ('.' :: "json".data) <:+ rest := (extAux_eq_some_iff _ hj rest).mp hcs
        refine ⟨?_, ?_⟩
        · exact hsuf.trans (List.suffix_cons _ _)
        · rw [hname]
          intro hEq
          have hre : rest = "json".data := by
            rw [hdj] at hEq
            exact (List.cons.injEq _ _ _ _ ▸ hEq).2
          rw [hre] at hsuf
          have := hsuf.length_le
          simp at this
      · rw [if_neg hc] at hcs
        have hsuf : ('.' :: "json".data) <:+ (c :: rest) := (extAux_eq_some_iff _ hj _).mp hcs
        refine ⟨hsuf, ?_⟩
        rw [hname, hdj]
        intro hEq
        exact hc (List.cons.injEq _ _ _ _ ▸ hEq).1
    · rintro ⟨hs, hne⟩
      have hne' : (c :: rest : List Char) ≠ '.' :: "json".data := hname.mp hne
      have hs' : ('.' :: "json".data) <:+ (c :: rest) := hs
      by_cases hc : c = '.'
      · subst hc
        rw [if_pos rfl]
        rw [List.suffix_cons_iff] at hs'
        have hsuf : ('.' :: "json".data) <:+ rest := by
          rcases hs' with hs' | hs'
          · exact absurd hs'.symm hne'
          · exact hs'
        rw [Option.map_eq_some']
        exact ⟨"json".data, (extAux_eq_some_iff _ hj rest).mpr hsuf, rfl⟩
      · rw [if_neg hc, Option.map_eq_some']
        exact ⟨"json".data, (extAux_eq_some_iff _ hj _).mpr hs', rfl⟩

/-! ## Helper lemmas: the directory scan -/

/-- The entry loop returns Ok exactly when every listed entry is readable. -/
theorem processEntries_result_ok_iff (env : Env) (es : List (Option FsPath)) :
    (processEntries env es).result = .ok () ↔ none ∉ es := by
  induction es with
  | nil => simp [processEntries]
  | cons o rest ih =>
    cases o with
    | none => simp [processEntries]
    | some p =>
      simp only [processEntries]
      by_cases hx : p.extension = some "json"
      · rw [if_pos hx]
        cases hfo : (processFile env p).result <;> simp_all
      · rw [if_neg hx]
        simp_all

/-- The entry loop returns a DirectoryError exactly when some listed entry
is unreadable. -/
theorem processEntries_dirError_iff (env : Env) (es : List (Option FsPath)) :
    resultIsDirectoryError (processEntries env es).result = true ↔ none ∈ es := by
  induction es with
  | nil => simp [processEntries, resultIsDirectoryError]
  | cons o rest ih =>
    cases o with
    | none => simp [processEntries, resultIsDirectoryError, ETLPipelineError.isDirectoryError]
    | some p =>
      simp only [processEntries]
      by_cases hx : p.extension = some "json"
      · rw [if_pos hx]
        cases hfo : (processFile env p).result <;> simp_all
      · rw [if_neg hx]
        simp_all

/-- Everything after the first unreadable entry is irrelevant to the whole
outcome: the scan stops there. -/
theorem processEntries_stops_at_entry_error (env : Env) (es1 es2 : List (Option FsPath)) :
    processEntries env (es1 ++ none :: es2) = processEntries env (es1 ++ [none]) := by
  induction es1 with
  | nil => rfl
  | cons o rest ih =>
    cases o with
    | none => rfl
    | some p =>
      simp only [List.cons_append, processEntries, List.append_eq]
      rw [ih]

/-- On a fully readable listing, process_file is invoked exactly on the
entries whose extension is "json", in listing order. -/
theorem processEntries_processedOn (env : Env) (es : List (Option FsPath)) (h : none ∉ es) :
    (processEntries env es).processedOn =
      (es.filterMap id).filter (fun p => p.extension = some "json") := by
  induction es with
  | nil => simp [processEntries]
  | cons o rest ih =>
    cases o with
    | none => simp at h
    | some p =>
      have h' : none ∉ rest := fun hr => h (List.mem_cons_of_mem _ hr)
      simp only [processEntries, List.filterMap_cons, id]
      by_cases hx : p.extension = some "json"
      · rw [if_pos hx]
        cases hfo : (processFile env p).result <;>
          simp [List.filter_cons, hx, ih h']
      · rw [if_neg hx]
        simp [List.filter_cons, hx, ih h']

/-- On a fully readable listing, the two counters count exactly the json
entries whose process_file call succeeded and failed. -/
theorem processEntries_counts (env : Env) (es : List (Option FsPath)) (h : none ∉ es) :
    (processEntries env es).processedFiles =
      (((es.filterMap id).filter (fun p => p.extension = some "json")).filter
        (fun p => fileOk env p)).length ∧
    (processEntries env es).failedFiles =
      (((es.filterMap id).filter (fun p => p.extension = some "json")).filter
        (fun p => !(fileOk env p))).length := by
  induction es with
  | nil => simp [processEntries]
  | cons o rest ih =>
    cases o with
    | none => simp at h
    | some p =>
      have h' : none ∉ rest := fun hr => h (List.mem_cons_of_mem _ hr)
      obtain ⟨ih1, ih2⟩ := ih h'
      simp only [processEntries, List.filterMap_cons, id]
      by_cases hx : p.extension = some "json"
      · rw [if_pos hx]
        cases hfo : (processFile env p).result with
        | ok u =>
          have hok : fileOk env p = true := by simp [fileOk, hfo]
          simp [List.filter_cons, hx, hok, ih1, ih2]
        | error e =>
          have hok : fileOk env p = false := by simp [fileOk, hfo]
          simp [List.filter_cons, hx, hok, ih1, ih2]
      · rw [if_neg hx]
        simp [List.filter_cons, hx, ih1, ih2]

/-! ## Helper lemmas: process_file -/

/-- Every statement process_file ever executes carries the one fixed SQL
text of the source. -/
theorem processFile_stmt_text (env : Env) (p : FsPath) (s : SqlExec)
    (h : s ∈ (processFile env p).stmts) : s.text = insertSqlText := by
  cases hr : env.readFile p with
  | none => simp [processFile, hr] at h
  | some c =>
    cases hp : env.parseJson c with
    | none => simp [processFile, hr, hp] at h
    | some v =>
      by_cases hd : env.dbOk ⟨insertSqlText, [.str (fileNameOf p), .json v]⟩
      · simp [processFile, hr, hp, hd] at h
        rw [h]
      · simp [processFile, hr, hp, hd] at h
        rw [h]

/-! ## Claim C1 -/

/-- C1 counterexample: under a directory listing of two readable entries
a.json and b.json in an environment where reading every file fails,
process_file fails on the first entry, yet process_directory still invokes
process_file on the second entry, counts two failures, and returns Ok
rather than propagating the first file's error: the scan is not aborted. -/
theorem processDirectory_no_abort_counterexample :
    (processFile envReadFail pA).result = .error (.fileReadError "a.json") ∧
    (processDirectory envReadFail (some [some pA, some pB])).processedOn = [pA, pB] ∧
    (processDirectory envReadFail (some [some pA, some pB])).result = .ok () ∧
    (processDirectory envReadFail (some [some pA, some pB])).failedFiles = 2 :=
  ⟨rfl, rfl, rfl, rfl⟩

/-- C1 amended: failure of one file's process_file call does NOT abort the
scan: on a directory whose entries can all be listed, process_directory
returns Ok unconditionally, and its two counters tally exactly the .json
entries whose process_file call succeeded and failed. -/
theorem processDirectory_continues_after_file_failure (env : Env)
    (es : List (Option FsPath)) (h : none ∉ es) :
    (processDirectory env (some es)).result = .ok () ∧
    (processDirectory env (some es)).processedFiles =
      (((es.filterMap id).filter (fun p => p.extension = some "json")).filter
        (fun p => fileOk env p)).length ∧
    (processDirectory env (some es)).failedFiles =
      (((es.filterMap id).filter (fun p => p.extension = some "json")).filter
        (fun p => !(fileOk env p))).length := by
  obtain ⟨h1, h2⟩ := processEntries_counts env es h
  exact ⟨(processEntries_result_ok_iff env es).mpr h, h1, h2⟩

/-- C1 witness: the amended statement at the concrete two-entry directory
where both process_file calls fail. -/
theorem processDirectory_continues_witness :
    (processDirectory envReadFail (some [some pA, some pB])).result = .ok () ∧
    (processDirectory envReadFail (some [some pA, some pB])).processedFiles =
      ((([some pA, some pB].filterMap id).filter
        (fun p => p.extension = some "json")).filter
        (fun p => fileOk envReadFail p)).length ∧
    (processDirectory envReadFail (some [some pA, some pB])).failedFiles =
      ((([some pA, some pB].filterMap id).filter
        (fun p => p.extension = some "json")).filter
        (fun p => !(fileOk envReadFail p))).length :=
  processDirectory_continues_after_file_failure envReadFail [some pA, some pB] (by simp)

/-! ## Claim C2 -/

/-- C2 counterexample: on a successfully read and parsed file whose JSON is
the object with single field a = 1, the one executed statement binds the
file name and the whole JSON value, not the flattened values, and its text
is the fixed insert into json_data: the column list is not derived from
the flattened mapping's keys (those would be just a). -/
theorem processFile_not_flattened_counterexample :
    (processFile envA pF).result = .ok () ∧
    (processFile envA pF).stmts.map SqlExec.text = [insertSqlText] ∧
    (processFile envA pF).stmts.map SqlExec.binds = [[.str "f.json", .json jA]] ∧
    claimedColumns jA = ["a"] ∧
    claimedBindValues jA = [.json (.num 1)] ∧
    (processFile envA pF).stmts.map SqlExec.binds ≠ [claimedBindValues jA] := by
  refine ⟨rfl, rfl, rfl, ?_, ?_, ?_⟩
  · simp [claimedColumns, flatten, flattenFields, combineKey, jA]
    rfl
  · simp [claimedBindValues, flatten, flattenFields, combineKey, jA]
  · intro hEq
    have h1 : (processFile envA pF).stmts.map SqlExec.binds = [[.str "f.json", .json jA]] := rfl
    have h2 : claimedBindValues jA = [.json (.num 1)] := by
      simp [claimedBindValues, flatten, flattenFields, combineKey, jA]
    rw [h1, h2] at hEq
    have := congrArg (fun l => (l.headD []).length) hEq
    simp at this

/-- C2 amended: for every successfully read and parsed input file,
process_file executes exactly one insertion statement, and it is the fixed
statement INSERT INTO json_data (file_name, data) VALUES (dollar-1,
dollar-2) of the source, binding in order the derived file name and the
whole parsed JSON value; on database success exactly the one row
(file_name, data) is inserted, and on database failure zero rows are. -/
theorem processFile_one_fixed_insert (env : Env) (p : FsPath) (c : String) (v : Json)
    (h1 : env.readFile p = some c) (h2 : env.parseJson c = some v) :
    (processFile env p).stmts = [⟨insertSqlText, [.str (fileNameOf p), .json v]⟩] ∧
    (env.dbOk ⟨insertSqlText, [.str (fileNameOf p), .json v]⟩ = true →
      (processFile env p).result = .ok () ∧
      (processFile env p).rows = [(fileNameOf p, v)]) ∧
    (env.dbOk ⟨insertSqlText, [.str (fileNameOf p), .json v]⟩ = false →
      (processFile env p).result = .error (.databaseError (fileNameOf p)) ∧
      (processFile env p).rows = []) := by
  by_cases hd : env.dbOk ⟨insertSqlText, [.str (fileNameOf p), .json v]⟩ <;>
    simp [processFile, h1, h2, hd]

/-- C2 witness: the amended statement at the concrete readable fixture. -/
theorem processFile_one_fixed_insert_witness :
    (processFile envA pF).stmts = [⟨insertSqlText, [.str (fileNameOf pF), .json jA]⟩] ∧
    (envA.dbOk ⟨insertSqlText, [.str (fileNameOf pF), .json jA]⟩ = true →
      (processFile envA pF).result = .ok () ∧
      (processFile envA pF).rows = [(fileNameOf pF, jA)]) ∧
    (envA.dbOk ⟨insertSqlText, [.str (fileNameOf pF), .json jA]⟩ = false →
      (processFile envA pF).result = .error (.databaseError (fileNameOf pF)) ∧
      (processFile envA pF).rows = []) :=
  processFile_one_fixed_insert envA pF "file-content-a" jA rfl (by simp [envA])

/-- The empty string is empty: a reduction fact the flatten evaluations
use. -/
theorem empty_string_isEmpty : ("" : String).isEmpty = true := rfl

/-! ## Claim C3 -/

/-- C3: flatten of the object a mapping to (b mapping to 1, c mapping to
(d mapping to 2)) under the empty prefix is exactly the two-entry mapping
a_b to 1 and a_c_d to 2; and in general a nested object child at key k
under prefix p is flattened under the new prefix p underscore k when p is
non-empty and k alone otherwise. -/
theorem flatten_nested_example_and_key_rule :
    flatten (.obj [("a", .obj [("b", .num 1), ("c", .obj [("d", .num 2)])])]) "" =
      [("a_b", .num 1), ("a_c_d", .num 2)] ∧
    ∀ (p k : String) (f rest : List (String × Json)),
      flattenFields p ((k, .obj f) :: rest) =
        flattenFields (if p.isEmpty then k else p ++ "_" ++ k) f ++ flattenFields p rest := by
  constructor
  · simp [flatten, flattenFields, combineKey]
    decide
  · intro p k f rest
    simp [flattenFields, combineKey]

/-! ## Claim C4 -/

/-- C4 counterexample, two defects at concrete inputs. First: in the object
whose top key is the empty string over the object b mapping to 1, the
single leaf has ancestor key path empty string then b, whose underscore
join is the string underscore b; but flatten keys that leaf by b alone,
because an empty accumulated prefix is absorbed rather than joined.
Second: on the spec's own collision example — a literal key a_b next to a
nested a then b — two distinct leaves collapse to the one compound key
a_b, and the FlatRecord keeps a single entry (the later-processed leaf
overwriting the earlier), so not every leaf produces its own entry. -/
theorem flatten_underscore_join_counterexample :
    leaves jEmptyKey = [(["", "b"], .num 1)] ∧
    underscoreJoin ["", "b"] = "_b" ∧
    flatten jEmptyKey "" = [("b", .num 1)] ∧
    ("b" : String) ≠ "_b" ∧
    leaves jCollide = [(["a_b"], .num 1), (["a", "b"], .num 2)] ∧
    flatRecord jCollide = [("a_b", .num 2)] := by
  have hstream : flatten jCollide "" = [("a_b", .num 1), ("a_b", .num 2)] := by
    simp [jCollide, flatten, flattenFields, combineKey, empty_string_isEmpty]
    decide
  refine ⟨?_, by decide, ?_, by decide, ?_, ?_⟩
  · simp [jEmptyKey, leaves, leavesFields]
  · simp [jEmptyKey, flatten, flattenFields, combineKey, empty_string_isEmpty]
  · simp [jCollide, leaves, leavesFields]
  · unfold flatRecord
    rw [hstream]
    rfl

/-- C4 amended: every leaf (non-object) value, however deeply nested,
produces exactly one entry of the flatten traversal's entry stream, in
traversal order, keyed by the left fold of the prefix rule over its
ancestor keys — equal to the plain underscore join whenever no ancestor
key is the empty string. The FlatRecord merges that stream with the
later-processed entry for a compound key silently overwriting the
earlier, so the record's keys are always unique, and whenever no two
leaves collide on one compound key the record holds exactly one entry per
leaf. Array values are stored as one opaque value under their parent's
key and their elements are never recursively flattened. -/
theorem flatten_one_entry_per_leaf (v : Json) :
    flatten v "" = (leaves v).map (fun e => (joinKey "" e.1, e.2)) ∧
    ((flatRecord v).map Prod.fst).Nodup ∧
    (((flatten v "").map Prod.fst).Nodup → flatRecord v = flatten v "") ∧
    (∀ ks : List String, (∀ k ∈ ks, k ≠ "") → joinKey "" ks = underscoreJoin ks) ∧
    (∀ (name : String) (xs : List Json),
      flatten (.obj [(name, .arr xs)]) "" = [(name, .arr xs)]) := by
  refine ⟨flatten_eq_leaves v, mergeEntries_keys_nodup _ _ (by simp), ?_,
    joinKey_empty_underscore, ?_⟩
  · intro h
    have hm := mergeEntries_nodup_append (flatten v "") [] (by simpa using h)
    simpa [flatRecord] using hm
  · intro name xs
    simp [flatten, flattenFields, combineKey, empty_string_isEmpty]

/-- C4 witness: the amended statement applied at the array fixture, giving
the spec's own array example, a concrete all-non-empty key path, and the
record coinciding with the collision-free stream. -/
theorem flatten_one_entry_per_leaf_witness :
    flatten jArr "" = [("a", .arr [.num 1, .num 2, .num 3])] ∧
    joinKey "" ["a", "b"] = underscoreJoin ["a", "b"] ∧
    flatRecord jArr = flatten jArr "" := by
  have h := flatten_one_entry_per_leaf jArr
  have he : flatten jArr "" = [("a", .arr [.num 1, .num 2, .num 3])] :=
    h.2.2.2.2 "a" [.num 1, .num 2, .num 3]
  refine ⟨he, h.2.2.2.1 ["a", "b"] (by decide), h.2.2.1 ?_⟩
  rw [he]
  simp

/-! ## Claim C5 -/

/-- C5 counterexample: the entry named exactly ".json" ends in ".json" by a
case-sensitive suffix match, yet process_directory does not invoke
process_file on it: Rust's extension() treats it as a hidden file with no
extension, so the selection is not exactly the ".json"-suffix entries. -/
theorem processDirectory_hidden_json_counterexample :
    pHidden.fileName? = some ".json" ∧
    ".json".data <:+ ".json".data ∧
    (processDirectory envReadFail (some [some pHidden])).processedOn = [] :=
  ⟨rfl, List.suffix_refl _, rfl⟩

/-- C5 amended: on a directory whose entries can all be listed,
process_file is invoked exactly on the entries whose extension() is
"json", in order; and extension() being "json" is the case-sensitive
".json" suffix match EXCEPT on the name ".json" itself, which is skipped.
Subdirectories are never recursed into (the scan sees one level only). -/
theorem processDirectory_scans_json_extension (env : Env)
    (es : List (Option FsPath)) (h : none ∉ es) :
    (processDirectory env (some es)).processedOn =
      (es.filterMap id).filter (fun p => p.extension = some "json") ∧
    ∀ name : String,
      rustExtension name = some "json" ↔
        (".json".data <:+ name.data ∧ name ≠ ".json") :=
  ⟨processEntries_processedOn env es h, rustExtension_json_iff⟩

/-- C5 witness: in the directory holding a.json, b.txt and c.JSON only
a.json is processed. -/
theorem processDirectory_scans_json_witness :
    (processDirectory envReadFail (some [some pA, some pT, some pJ])).processedOn = [pA] := by
  have h := processDirectory_scans_json_extension envReadFail
    [some pA, some pT, some pJ] (by simp)
  rw [h.1]
  rfl

/-! ## Claim C6 -/

/-- C6: process_file returns FileReadError when the file cannot be read,
and JsonParseError when the read content fails to parse as JSON; in both
failure cases it executes no statement and inserts no row. -/
theorem processFile_error_classification (env : Env) (p : FsPath) :
    (env.readFile p = none →
      (processFile env p).result = .error (.fileReadError (fileNameOf p)) ∧
      (processFile env p).stmts = [] ∧ (processFile env p).rows = []) ∧
    (∀ c, env.readFile p = some c → env.parseJson c = none →
      (processFile env p).result = .error (.jsonParseError (fileNameOf p)) ∧
      (processFile env p).stmts = [] ∧ (processFile env p).rows = []) := by
  constructor
  · intro h
    simp [processFile, h]
  · intro c h1 h2
    simp [processFile, h1, h2]

/-- C6 witness: the classification applied at the unreadable fixture and at
the unparsable fixture. -/
theorem processFile_error_classification_witness :
    (processFile envReadFail pA).result = .error (.fileReadError "a.json") ∧
    (processFile envReadFail pA).stmts = [] ∧
    (processFile envParseFail pA).result = .error (.jsonParseError "a.json") ∧
    (processFile envParseFail pA).stmts = [] := by
  have h1 := (processFile_error_classification envReadFail pA).1 rfl
  have h2 := (processFile_error_classification envParseFail pA).2 "not-json" rfl rfl
  exact ⟨h1.1, h1.2.1, h2.1, h2.2.1⟩

/-! ## Claim C7 -/

/-- C7: process_directory returns a DirectoryError exactly when the
listing itself fails or some listed entry is unreadable; it returns Ok
exactly otherwise; and the scan stops at the first unreadable entry — the
whole outcome ignores everything after it. -/
theorem processDirectory_directoryError_exact (env : Env)
    (listing : Option (List (Option FsPath))) :
    (resultIsDirectoryError (processDirectory env listing).result = true ↔
      (listing = none ∨ ∃ es, listing = some es ∧ none ∈ es)) ∧
    ((processDirectory env listing).result = .ok () ↔
      (∃ es, listing = some es ∧ none ∉ es)) ∧
    ∀ es1 es2, processEntries env (es1 ++ none :: es2) = processEntries env (es1 ++ [none]) := by
  refine ⟨?_, ?_, processEntries_stops_at_entry_error env⟩
  · cases listing with
    | none =>
      simp [processDirectory, resultIsDirectoryError, ETLPipelineError.isDirectoryError]
    | some es => simp [processDirectory, processEntries_dirError_iff]
  · cases listing with
    | none => simp [processDirectory]
    | some es => simp [processDirectory, processEntries_result_ok_iff]

/-! ## Claim C8 -/

/-- C8: flatten with empty prefix of an object none of whose values is a
nested object returns exactly the object's own field list: same keys,
same values, same order. -/
theorem flatten_flat_object_identity (fs : List (String × Json))
    (h : ∀ e ∈ fs, e.2.isObj = false) :
    flatten (.obj fs) "" = fs := by
  simp only [flatten]
  induction fs with
  | nil => simp [flattenFields]
  | cons e rest ih =>
    obtain ⟨k, c⟩ := e
    have hc : c.isObj = false := h (k, c) (List.mem_cons_self _ _)
    have h' : ∀ e ∈ rest, e.2.isObj = false := fun e he => h e (List.mem_cons_of_mem _ he)
    cases c with
    | obj f => simp [Json.isObj] at hc
    | null => simp [flattenFields, combineKey_empty, ih h']
    | bool b => simp [flattenFields, combineKey_empty, ih h']
    | num n => simp [flattenFields, combineKey_empty, ih h']
    | str s => simp [flattenFields, combineKey_empty, ih h']
    | arr xs => simp [flattenFields, combineKey_empty, ih h']

/-- C8 witness: the identity at a flat object holding a scalar and an
array. -/
theorem flatten_flat_object_identity_witness :
    flatten (.obj [("x", .num 1), ("y", .arr [.num 1, .num 2, .num 3])]) "" =
      [("x", .num 1), ("y", .arr [.num 1, .num 2, .num 3])] :=
  flatten_flat_object_identity [("x", .num 1), ("y", .arr [.num 1, .num 2, .num 3])]
    (by decide)

/-! ## Claim C9 -/

/-- C9: the SQL text process_file executes is one fixed string, whatever
the environment, the path and the parsed content: any two executed
statements from any two runs carry identical text, so no part of the JSON
content or its keys reaches the SQL text — only the two bound values vary. -/
theorem processFile_sql_text_input_independent (env1 env2 : Env) (p1 p2 : FsPath)
    (s1 s2 : SqlExec) (h1 : s1 ∈ (processFile env1 p1).stmts)
    (h2 : s2 ∈ (processFile env2 p2).stmts) :
    s1.text = insertSqlText ∧ s2.text = insertSqlText ∧ s1.text = s2.text := by
  have t1 := processFile_stmt_text env1 p1 s1 h1
  have t2 := processFile_stmt_text env2 p2 s2 h2
  exact ⟨t1, t2, t1.trans t2.symm⟩

/-- C9 witness: two runs over different environments, paths and parsed
documents execute statements with the same text. -/
theorem processFile_sql_text_witness :
    (⟨insertSqlText, [.str "f.json", .json jA]⟩ : SqlExec).text = insertSqlText ∧
    (⟨insertSqlText, [.str "g.json", .json jB]⟩ : SqlExec).text = insertSqlText ∧
    (⟨insertSqlText, [.str "f.json", .json jA]⟩ : SqlExec).text =
      (⟨insertSqlText, [.str "g.json", .json jB]⟩ : SqlExec).text :=
  processFile_sql_text_input_independent envA envB pF pG _ _
    (by simp [processFile, envA, fileNameOf, pF])
    (by simp [processFile, envB, fileNameOf, pG])

/-! ## Claim C10 -/

/-- C10: a path with no extractable final component does not fail for that
reason: process_file proceeds and binds the literal string "unknown" as
the file_name value, inserting the row ("unknown", data) on database
success. -/
theorem processFile_missing_name_binds_unknown (env : Env) (p : FsPath) (c : String) (v : Json)
    (hn : p.fileName? = none) (h1 : env.readFile p = some c) (h2 : env.parseJson c = some v) :
    (processFile env p).stmts = [⟨insertSqlText, [.str "unknown", .json v]⟩] ∧
    (env.dbOk ⟨insertSqlText, [.str "unknown", .json v]⟩ = true →
      (processFile env p).result = .ok () ∧
      (processFile env p).rows = [("unknown", v)]) := by
  have hf : fileNameOf p = "unknown" := by simp [fileNameOf, hn]
  by_cases hd : env.dbOk ⟨insertSqlText, [.str "unknown", .json v]⟩ <;>
    simp [processFile, h1, h2, hf, hd]

/-- C10 witness: the statement at the concrete no-name path over the
readable fixture. -/
theorem processFile_missing_name_witness :
    (processFile envA pNoName).stmts = [⟨insertSqlText, [.str "unknown", .json jA]⟩] ∧
    (envA.dbOk ⟨insertSqlText, [.str "unknown", .json jA]⟩ = true →
      (processFile envA pNoName).result = .ok () ∧
      (processFile envA pNoName).rows = [("unknown", jA)]) :=
  processFile_missing_name_binds_unknown envA pNoName "file-content-a" jA rfl rfl
    (by simp [envA])
